import Mathlib

/-!
Shallow embedding of the decentralized graph-coloring scripts
(`part_1.py` and `part_2.py`).

Modelling conventions:
* Adjacency matrices are `List (List Nat)` of 0/1 entries, exactly the
  nested-list representation the scripts build; `entry` reads
  `adj_matrix[i][j]` (out-of-range indices default to 0; the scripts only
  index in range, since all their matrices are square).
* Calls to `random.random()` are modelled by an injected oracle producing
  rational draws (Python's floats in `[0,1)`); a comparison
  `random.random() < p` becomes `oracle k < p`.  Calls to
  `random.randint(0, len-1)` are modelled by an oracle producing a natural
  number taken modulo the list length, which ranges over exactly the same
  set of indices.
* `while` loops whose termination is not structural are given explicit
  fuel and return `Option`, with `none` meaning the loop was still running
  after `fuel` passes.
-/

namespace GraphColoring

/-- Color tokens, as the strings used by the scripts. -/
abbrev Color := String

/-- Adjacency matrix: a list of rows of 0/1 entries. -/
abbrev Matrix := List (List Nat)

/-- Reads `adj_matrix[i][j]`; out-of-range reads default to 0 (the scripts
only index in range). -/
def entry (adj_matrix : Matrix) (i j : Nat) : Nat :=
  (adj_matrix.getD i []).getD j 0

/-- Embeds `get_node_neighbours` (identical in both scripts): the list of
indices `n` of the node's row with `row[n] == 1`. -/
def get_node_neighbours (node : Nat) (adj_matrix : Matrix) : List Nat :=
  (List.range (adj_matrix.getD node []).length).filter
    (fun n => (adj_matrix.getD node []).getD n 0 == 1)

/-- Embeds `get_node_color`: `colors[node]`. -/
def get_node_color (node : Nat) (colors : List Color) : Color :=
  colors.getD node ""

/-- Embeds `get_color_conflicts` (identical in both scripts): iterate
`node_1` over all rows and `node_2` strictly below the diagonal, counting
adjacent equal-colored pairs. -/
def get_color_conflicts (adj_matrix : Matrix) (colors : List Color) : Nat :=
  ((List.range adj_matrix.length).map (fun node_1 =>
    ((List.range node_1).map (fun node_2 =>
      if entry adj_matrix node_1 node_2 = 1 then
        if get_node_color node_1 colors = get_node_color node_2 colors then 1 else 0
      else 0)).sum)).sum

/-- Embeds `rand_initialise_colors` (identical in both scripts).  The
`random.randint(0, len(colors_list) - 1)` call sits inside
`for node in range(len(adj_matrix))`, so it raises `ValueError` (modelled as
`none`) only when that loop actually draws — at least one node and an empty
palette; with a zero-row matrix the loop body never runs and the function
returns the empty list without raising.  Otherwise the oracle value taken
modulo the length ranges over exactly the indices `randint` can produce. -/
def rand_initialise_colors (adj_matrix : Matrix) (colors_list : List Color)
    (oracle : Nat → Nat) : Option (List Color) :=
  if adj_matrix.length = 0 then some []
  else if colors_list.length = 0 then none
  else some ((List.range adj_matrix.length).map
    (fun node => colors_list.getD (oracle node % colors_list.length) ""))

/-- Distinct colors held by a node's neighbours.  Python builds a `set()` but
only tests membership in it, so a list with the same members is faithful. -/
def unique_colors_of_neighbours (node : Nat) (adj_matrix : Matrix)
    (colors : List Color) : List Color :=
  (get_node_neighbours node adj_matrix).map (fun neighbour => get_node_color neighbour colors)

/-- Embeds the body of the per-node agent loop (`part_1.py` lines 133-158 and
the identical code in `part_2.py`): if the node's color clashes with a
neighbour's and the random draw is below `prob_of_node_changing_color`, the
node takes the first color of `curr_colors_list` not held by any neighbour
(keeping its old color when every palette color is so held). -/
def nodeStep (adj_matrix : Matrix) (curr_colors_list : List Color) (p_change : ℚ)
    (colors : List Color) (node : Nat) (draw : ℚ) : List Color :=
  let unique := unique_colors_of_neighbours node adj_matrix colors
  if get_node_color node colors ∈ unique then
    if draw < p_change then
      match curr_colors_list.find? (fun color => !(unique.contains color)) with
      | some color => colors.set node color
      | none => colors
    else colors
  else colors

/-- One pass of the agent loop over all nodes in increasing id order, against
the live coloring (earlier updates in the pass are visible to later nodes).
The oracle gives each node the `random.random()` draw it consumes when in
conflict. -/
def runRound (adj_matrix : Matrix) (curr_colors_list : List Color) (p_change : ℚ)
    (oracle : Nat → ℚ) (colors : List Color) : List Color :=
  (List.range adj_matrix.length).foldl
    (fun cs node => nodeStep adj_matrix curr_colors_list p_change cs node (oracle node)) colors

/-- Embeds the inner while loop of one attempt: while the conflict count is
nonzero and the round budget is not exhausted, run one pass over the agents.
The fuel is the remaining round budget (`max_iterations_per_color_list` at the
top of an attempt); the oracle is indexed by round, then node. -/
def attemptLoop (adj_matrix : Matrix) (curr_colors_list : List Color) (p_change : ℚ)
    (oracle : Nat → Nat → ℚ) : Nat → Nat → List Color → List Color
  | 0, _, colors => colors
  | fuel + 1, roundIdx, colors =>
    if get_color_conflicts adj_matrix colors = 0 then colors
    else attemptLoop adj_matrix curr_colors_list p_change oracle fuel (roundIdx + 1)
      (runRound adj_matrix curr_colors_list p_change (oracle roundIdx) colors)

/-- Expresses that `c` is the first color of `palette`, in palette order, not
in `avoid`: `c` is outside `avoid` and every color strictly before it in the
palette is in `avoid`. -/
def IsFirstAvailable (palette avoid : List Color) (c : Color) : Prop :=
  c ∉ avoid ∧ ∃ l1 l2, palette = l1 ++ c :: l2 ∧ ∀ x ∈ l1, x ∈ avoid

/-- Phase one of `create_random_simple_graph`: the lower-triangular rows.  Row
`x` has entries for `y ≤ x`: 0 on the diagonal, otherwise 1 exactly when the
`random.random()` draw for that pair is below the edge probability. -/
def lowerRows (num_nodes : Nat) (prob : ℚ) (oracle : Nat → Nat → ℚ) : Matrix :=
  (List.range num_nodes).map (fun x =>
    (List.range (x + 1)).map (fun y =>
      if x = y then 0 else if oracle x y < prob then 1 else 0))

/-- Embeds `create_random_simple_graph` (identical in both scripts): build the
lower triangle including the zero diagonal, then extend row `x` with the
column values `adj_matrix[y][x]` for `y > x`.  When row `x` is extended the
rows `y > x` it reads still hold only their phase-one entries (they are
extended at later steps), so reading the phase-one matrix is faithful. -/
def create_random_simple_graph (num_nodes : Nat) (prob : ℚ)
    (oracle : Nat → Nat → ℚ) : Matrix :=
  let adj := lowerRows num_nodes prob oracle
  (List.range num_nodes).map (fun x =>
    adj.getD x [] ++ (((List.range num_nodes).drop (x + 1)).map (fun y => entry adj y x)))

/-- All pairs `(node_1, node_2)` with `node_2 < node_1 < num_nodes`, in the
iteration order of the nested for loops of `reverse_n_adjacencies`. -/
def lowerPairs (num_nodes : Nat) : List (Nat × Nat) :=
  (List.range num_nodes).flatMap (fun node_1 =>
    (List.range node_1).map (fun node_2 => (node_1, node_2)))

/-- Maximum possible number of edges, as computed at the top of
`reverse_n_adjacencies` (Python float division of `n * (n - 1)` by 2). -/
def max_edges (num_nodes : Nat) : ℚ :=
  ((num_nodes : ℚ) * ((num_nodes : ℚ) - 1)) / 2

/-- Flips the single entry `adj_matrix[node_1][node_2]` (line 110 of
`part_2.py`); the mirror entry `adj_matrix[node_2][node_1]` is not touched. -/
def toggleEntry (m : Matrix) (i j : Nat) : Matrix :=
  m.set i ((m.getD i []).set j (if entry m i j = 0 then 1 else 0))

/-- One full pass of the nested for loops of `reverse_n_adjacencies`: for each
lower pair in order, consume one draw and toggle the entry when the draw is
below `p` (which the script computes as `count / max_edges`).  The state is
the matrix, the toggles performed so far, and the next draw index. -/
def reverseScan (num_nodes : Nat) (p : ℚ) (oracle : Nat → ℚ)
    (st : Matrix × Nat × Nat) : Matrix × Nat × Nat :=
  (lowerPairs num_nodes).foldl
    (fun s pair =>
      if oracle s.2.2 < p then (toggleEntry s.1 pair.1 pair.2, s.2.1 + 1, s.2.2 + 1)
      else (s.1, s.2.1, s.2.2 + 1))
    st

/-- The outer while loop of `reverse_n_adjacencies`, with one unit of fuel per
full scan; `none` means the loop was still running after `fuel` scans. -/
def reverseLoop (num_nodes : Nat) (count : Nat) (p : ℚ) (oracle : Nat → ℚ) :
    Nat → Matrix × Nat × Nat → Option (Matrix × Nat × Nat)
  | 0, st => if st.2.1 < count then none else some st
  | fuel + 1, st =>
    if st.2.1 < count then
      reverseLoop num_nodes count p oracle fuel (reverseScan num_nodes p oracle st)
    else some st

/-- Embeds `reverse_n_adjacencies` with explicit fuel for the outer while
loop.  Returns the final matrix together with the total number of toggles
performed (`adjacencies_reversed`).  The probability `count / max_edges` is
evaluated only at the comparison inside the pair loop (line 108); for
matrices with at most one row that loop body never executes, so the division
(a `ZeroDivisionError` in Python when `max_edges` is 0) is never reached
there. -/
def reverse_n_adjacencies (fuel : Nat) (adj_matrix : Matrix)
    (num_adjencies_to_reverse : Nat) (oracle : Nat → ℚ) : Option (Matrix × Nat) :=
  (reverseLoop adj_matrix.length num_adjencies_to_reverse
      ((num_adjencies_to_reverse : ℚ) / max_edges adj_matrix.length) oracle fuel
      (adj_matrix, 0, 0)).map (fun st => (st.1, st.2.1))

/-- Expresses that the call never returns: for every amount of fuel the outer
while loop of `reverse_n_adjacencies` is still running. -/
def NeverReturns (adj_matrix : Matrix) (count : Nat) (oracle : Nat → ℚ) : Prop :=
  ∀ fuel, reverse_n_adjacencies fuel adj_matrix count oracle = none

/-- The full color list `all_available_colors` of the scripts. -/
def all_available_colors : List Color :=
  ["cyan", "magenta", "red", "green", "blue", "yellow", "purple", "lime", "orange", "maroon",
   "lightsteelblue", "navy"]

/-- Python's `range(start, stop, -1)`: `start, start - 1, ..., stop + 1`. -/
def rangeDown (start stop : Nat) : List Nat :=
  (List.range' (stop + 1) (start - stop)).reverse

/-- Outcome of one attempt of `part_1`: the palette size used, the coloring
the attempt ended with, and whether it converged (zero conflicts). -/
structure AttemptResult where
  size : Nat
  colors : List Color
  converged : Bool
deriving DecidableEq

/-- One attempt of `part_1` for a given palette size: fresh random
initialization from the size-prefix of the full palette, then the round loop
with the 500-round budget (`max_iterations_per_color_list`).  The `none`
models the `ValueError` Python would raise on an empty palette; the sizes
used by `part_1` are at least 3. -/
def part1Attempt (adj_matrix : Matrix) (p_change : ℚ) (initOracle : Nat → Nat)
    (roundOracle : Nat → Nat → ℚ) (size : Nat) : Option (List Color) :=
  (rand_initialise_colors adj_matrix (all_available_colors.take size) initOracle).map
    (fun colors0 =>
      attemptLoop adj_matrix (all_available_colors.take size) p_change roundOracle 500 0 colors0)

/-- The driver loop of `part_1` over a list of palette sizes: one attempt per
size; after a converged attempt its coloring becomes
`best_achieved_coloring` and the next size is tried; a failed attempt stops
the run (the `break` at line 170).  Returns the attempts performed and the
final best coloring. -/
def part1Loop (adj_matrix : Matrix) (p_change : ℚ) (initOracle : Nat → Nat → Nat)
    (roundOracle : Nat → Nat → Nat → ℚ) :
    List Nat → Option (List Color) → List AttemptResult × Option (List Color)
  | [], best => ([], best)
  | size :: rest, best =>
    match part1Attempt adj_matrix p_change (initOracle size) (roundOracle size) size with
    | none => ([], best)
    | some colors =>
      if get_color_conflicts adj_matrix colors = 0 then
        let result := part1Loop adj_matrix p_change initOracle roundOracle rest (some colors)
        (⟨size, colors, true⟩ :: result.1, result.2)
      else ([⟨size, colors, false⟩], best)

/-- The whole run of `part_1`: palette sizes `range(12, 2, -1)`, i.e. from
the full palette size 12 down to 3, starting with no best coloring. -/
def part1Run (adj_matrix : Matrix) (p_change : ℚ) (initOracle : Nat → Nat → Nat)
    (roundOracle : Nat → Nat → Nat → ℚ) : List AttemptResult × Option (List Color) :=
  part1Loop adj_matrix p_change initOracle roundOracle
    (rangeDown all_available_colors.length 2) none

/-- Sum of a function over `List.range` agrees with the `Finset.range` sum. -/
theorem list_sum_range_map (f : Nat → Nat) (n : Nat) :
    ((List.range n).map f).sum = ∑ i in Finset.range n, f i := by
  induction n with
  | zero => simp
  | succ m ih => rw [List.range_succ, Finset.sum_range_succ, List.map_append, List.sum_append, ih]; simp

/-- C8: `get_color_conflicts` equals the number of unordered adjacent
same-colored pairs, each counted exactly once, realized as the cardinality of
the set of pairs `(node_1, node_2)` with `node_2 < node_1` that are adjacent
and share a color.  Being a Lean function of the matrix and the coloring, it
is pure and deterministic. -/
theorem get_color_conflicts_counts_unordered_pairs_once (adj_matrix : Matrix) (colors : List Color) :
    get_color_conflicts adj_matrix colors =
      ((Finset.range adj_matrix.length ×ˢ Finset.range adj_matrix.length).filter
        (fun p => p.2 < p.1 ∧ entry adj_matrix p.1 p.2 = 1 ∧
          get_node_color p.1 colors = get_node_color p.2 colors)).card := by
  rw [Finset.card_filter, Finset.sum_product]
  simp only [get_color_conflicts, list_sum_range_map]
  apply Finset.sum_congr rfl
  intro i hi
  have hin : i ≤ adj_matrix.length := le_of_lt (Finset.mem_range.mp hi)
  rw [← Finset.sum_subset (Finset.range_subset.mpr hin)]
  · apply Finset.sum_congr rfl
    intro j hj
    have hji : j < i := Finset.mem_range.mp hj
    by_cases h1 : entry adj_matrix i j = 1 <;>
      by_cases h2 : get_node_color i colors = get_node_color j colors <;>
        simp [h1, h2, hji]
  · intro j _ hj
    have hji : ¬ j < i := fun h => hj (Finset.mem_range.mpr h)
    simp [hji]

/-- C10: `get_color_conflicts` depends only on the strictly-sub-diagonal
entries of the adjacency matrix: two matrices of equal size agreeing on all
entries `adj[i][j]` with `j < i` give the same conflict count for every
coloring. -/
theorem get_color_conflicts_depends_only_on_sub_diagonal (adj1 adj2 : Matrix) (colors : List Color)
    (hlen : adj1.length = adj2.length)
    (hsub : ∀ i ∈ List.range adj1.length, ∀ j ∈ List.range i, entry adj1 i j = entry adj2 i j) :
    get_color_conflicts adj1 colors = get_color_conflicts adj2 colors := by
  simp only [get_color_conflicts, list_sum_range_map]
  rw [← hlen]
  apply Finset.sum_congr rfl
  intro i hi
  apply Finset.sum_congr rfl
  intro j hj
  rw [hsub i (by simpa using hi) j (by simpa using hj)]

/-- Witness for C10 at a concrete pair of matrices that agree below the
diagonal but differ on and above it. -/
theorem get_color_conflicts_depends_only_on_sub_diagonal_witness :
    get_color_conflicts [[0,1],[1,0]] ["a","a"] = get_color_conflicts [[1,0],[1,1]] ["a","a"] :=
  get_color_conflicts_depends_only_on_sub_diagonal [[0,1],[1,0]] [[1,0],[1,1]] ["a","a"]
    (by decide) (by decide)

/-- Colors produced by `rand_initialise_colors` all come from the given list. -/
theorem rand_initialise_colors_mem (adj_matrix : Matrix) (colors_list : List Color)
    (oracle : Nat → Nat) (colors : List Color)
    (h : rand_initialise_colors adj_matrix colors_list oracle = some colors) :
    ∀ c ∈ colors, c ∈ colors_list := by
  unfold rand_initialise_colors at h
  by_cases ha : adj_matrix.length = 0
  · rw [if_pos ha, Option.some.injEq] at h
    subst h
    simp
  · rw [if_neg ha] at h
    by_cases hl : colors_list.length = 0
    · simp [hl] at h
    · simp only [hl, if_false, Option.some.injEq] at h
      subst h
      intro c hc
      obtain ⟨node, -, rfl⟩ := List.mem_map.mp hc
      have hlt : oracle node % colors_list.length < colors_list.length :=
        Nat.mod_lt _ (Nat.pos_of_ne_zero hl)
      rw [List.getD_eq_getElem _ _ hlt]
      exact List.getElem_mem hlt

/-- The node decision rule only ever assigns colors from the active palette. -/
theorem nodeStep_mem (adj_matrix : Matrix) (curr_colors_list : List Color) (p_change : ℚ)
    (colors : List Color) (node : Nat) (draw : ℚ)
    (h : ∀ c ∈ colors, c ∈ curr_colors_list) :
    ∀ c ∈ nodeStep adj_matrix curr_colors_list p_change colors node draw, c ∈ curr_colors_list := by
  intro c hc
  simp only [nodeStep] at hc
  by_cases hconf : get_node_color node colors ∈ unique_colors_of_neighbours node adj_matrix colors
  · rw [if_pos hconf] at hc
    by_cases hdraw : draw < p_change
    · rw [if_pos hdraw] at hc
      cases hf : curr_colors_list.find? (fun color =>
          !((unique_colors_of_neighbours node adj_matrix colors).contains color)) with
      | none => rw [hf] at hc; exact h c hc
      | some color =>
        rw [hf] at hc
        rcases List.mem_or_eq_of_mem_set hc with hmem | rfl
        · exact h c hmem
        · exact List.mem_of_find?_eq_some hf
    · rw [if_neg hdraw] at hc; exact h c hc
  · rw [if_neg hconf] at hc; exact h c hc

/-- A full round only ever assigns colors from the active palette. -/
theorem runRound_mem (adj_matrix : Matrix) (curr_colors_list : List Color) (p_change : ℚ)
    (oracle : Nat → ℚ) (colors : List Color)
    (h : ∀ c ∈ colors, c ∈ curr_colors_list) :
    ∀ c ∈ runRound adj_matrix curr_colors_list p_change oracle colors, c ∈ curr_colors_list := by
  unfold runRound
  generalize List.range adj_matrix.length = nodes
  induction nodes generalizing colors with
  | nil => exact h
  | cons hd tl ih =>
    exact ih _ (nodeStep_mem adj_matrix curr_colors_list p_change colors hd (oracle hd) h)

/-- The attempt loop only ever assigns colors from the active palette. -/
theorem attemptLoop_mem (adj_matrix : Matrix) (curr_colors_list : List Color) (p_change : ℚ)
    (oracle : Nat → Nat → ℚ) (fuel roundIdx : Nat) (colors : List Color)
    (h : ∀ c ∈ colors, c ∈ curr_colors_list) :
    ∀ c ∈ attemptLoop adj_matrix curr_colors_list p_change oracle fuel roundIdx colors,
      c ∈ curr_colors_list := by
  induction fuel generalizing roundIdx colors with
  | zero => exact h
  | succ n ih =>
    unfold attemptLoop
    split
    · exact h
    · exact ih _ _ (runRound_mem adj_matrix curr_colors_list p_change (oracle roundIdx) colors h)

/-- C2: whenever an attempt ends with zero conflicts, the final coloring
satisfies `get_color_conflicts adj_matrix colors = 0` and every node's color
is a member of the active palette `curr_colors_list` used for that attempt. -/
theorem converged_attempt_zero_conflicts_and_in_palette
    (adj_matrix : Matrix) (curr_colors_list : List Color) (p_change : ℚ)
    (initOracle : Nat → Nat) (roundOracle : Nat → Nat → ℚ) (fuel : Nat)
    (colors0 : List Color)
    (hinit : rand_initialise_colors adj_matrix curr_colors_list initOracle = some colors0)
    (hconv : get_color_conflicts adj_matrix
      (attemptLoop adj_matrix curr_colors_list p_change roundOracle fuel 0 colors0) = 0) :
    get_color_conflicts adj_matrix
      (attemptLoop adj_matrix curr_colors_list p_change roundOracle fuel 0 colors0) = 0 ∧
    ∀ c ∈ attemptLoop adj_matrix curr_colors_list p_change roundOracle fuel 0 colors0,
      c ∈ curr_colors_list :=
  ⟨hconv, attemptLoop_mem adj_matrix curr_colors_list p_change roundOracle fuel 0 colors0
    (rand_initialise_colors_mem adj_matrix curr_colors_list initOracle colors0 hinit)⟩

/-- Witness for C2 at a concrete converged attempt on a one-node graph. -/
theorem converged_attempt_zero_conflicts_and_in_palette_witness :
    get_color_conflicts [[0]] (attemptLoop [[0]] ["cyan"] 0 (fun _ _ => 0) 500 0 ["cyan"]) = 0 ∧
    ∀ c ∈ attemptLoop [[0]] ["cyan"] 0 (fun _ _ => 0) 500 0 ["cyan"], c ∈ ["cyan"] :=
  converged_attempt_zero_conflicts_and_in_palette [[0]] ["cyan"] 0 (fun _ => 0) (fun _ _ => 0)
    500 ["cyan"] (by rfl) (by rfl)

/-- Scanning a list for the first element outside `avoid` finds exactly the
element every predecessor of which lies in `avoid`. -/
theorem find?_first_not_mem (avoid l : List Color) (c : Color)
    (hfree : c ∉ avoid) (hsplit : ∃ l1 l2, l = l1 ++ c :: l2 ∧ ∀ x ∈ l1, x ∈ avoid) :
    l.find? (fun color => !(avoid.contains color)) = some c := by
  obtain ⟨l1, l2, rfl, hall⟩ := hsplit
  rw [List.find?_append]
  have h1 : l1.find? (fun color => !(avoid.contains color)) = none := by
    rw [List.find?_eq_none]
    intro x hx
    simp [hall x hx]
  rw [h1, List.find?_cons_of_pos _ (by simp [hfree])]
  rfl

/-- C7: the per-node decision rule.  (a) A node whose color is not among its
neighbours' distinct colors is unchanged this round.  (b) A conflicting node
whose draw declines recoloring is unchanged; one whose draw accepts scans the
active palette in its fixed order and assigns itself the first color not held
by any neighbour, and keeps its old color when every active color is so
held. -/
theorem nodeStep_decision_rule (adj_matrix : Matrix) (curr_colors_list : List Color)
    (p_change : ℚ) (colors : List Color) (node : Nat) (draw : ℚ) :
    (get_node_color node colors ∉ unique_colors_of_neighbours node adj_matrix colors →
      nodeStep adj_matrix curr_colors_list p_change colors node draw = colors) ∧
    (get_node_color node colors ∈ unique_colors_of_neighbours node adj_matrix colors →
      (¬ draw < p_change →
        nodeStep adj_matrix curr_colors_list p_change colors node draw = colors) ∧
      (draw < p_change →
        ((∀ color ∈ curr_colors_list,
            color ∈ unique_colors_of_neighbours node adj_matrix colors) →
          nodeStep adj_matrix curr_colors_list p_change colors node draw = colors) ∧
        (∀ c, IsFirstAvailable curr_colors_list
            (unique_colors_of_neighbours node adj_matrix colors) c →
          nodeStep adj_matrix curr_colors_list p_change colors node draw =
            colors.set node c))) := by
  refine ⟨fun hconf => ?_, fun hconf => ⟨fun hdraw => ?_, fun hdraw => ⟨fun hall => ?_, ?_⟩⟩⟩
  · simp only [nodeStep]
    rw [if_neg hconf]
  · simp only [nodeStep]
    rw [if_pos hconf, if_neg hdraw]
  · have hnone : curr_colors_list.find? (fun color =>
        !((unique_colors_of_neighbours node adj_matrix colors).contains color)) = none := by
      rw [List.find?_eq_none]
      intro x hx
      simp [hall x hx]
    simp only [nodeStep]
    rw [if_pos hconf, if_pos hdraw, hnone]
  · intro c hc
    have hsome : curr_colors_list.find? (fun color =>
        !((unique_colors_of_neighbours node adj_matrix colors).contains color)) = some c :=
      find?_first_not_mem _ _ _ hc.1 hc.2
    simp only [nodeStep]
    rw [if_pos hconf, if_pos hdraw, hsome]

/-- Witness for C7: a conflicting node with an accepting draw takes the first
free palette color. -/
theorem nodeStep_decision_rule_witness :
    nodeStep [[0,1],[1,0]] ["cyan","magenta"] 1 ["cyan","cyan"] 0 0 = ["magenta","cyan"] := by
  have h := nodeStep_decision_rule [[0,1],[1,0]] ["cyan","magenta"] 1 ["cyan","cyan"] 0 0
  exact ((h.2 (by decide)).2 (by decide)).2 "magenta" ⟨by decide, ["cyan"], [], rfl, by decide⟩

/-- Every entry of a matrix whose rows contain only zeros reads as zero. -/
theorem entry_eq_zero_of_forall_zero (m : Matrix)
    (h : ∀ row ∈ m, ∀ v ∈ row, v = 0) (i j : Nat) : entry m i j = 0 := by
  unfold entry
  rcases Nat.lt_or_ge i m.length with hi | hi
  · rcases Nat.lt_or_ge j (m.getD i []).length with hj | hj
    · rw [List.getD_eq_getElem _ _ hj]
      refine h _ ?_ _ (List.getElem_mem hj)
      rw [List.getD_eq_getElem _ _ hi]
      exact List.getElem_mem hi
    · exact List.getD_eq_default _ _ hj
  · rw [List.getD_eq_default _ _ hi]
    simp

/-- With a negative edge probability and nonnegative draws, phase one
produces only zero entries. -/
theorem lowerRows_all_zero (num_nodes : Nat) (prob : ℚ) (oracle : Nat → Nat → ℚ)
    (hdraw : ∀ i j, 0 ≤ oracle i j) (hprob : prob < 0) :
    ∀ row ∈ lowerRows num_nodes prob oracle, ∀ v ∈ row, v = 0 := by
  intro row hrow v hv
  obtain ⟨x, -, rfl⟩ := List.mem_map.mp hrow
  obtain ⟨y, -, rfl⟩ := List.mem_map.mp hv
  by_cases hxy : x = y
  · simp [hxy]
  · have : ¬ oracle x y < prob := not_lt.mpr (le_trans (le_of_lt hprob) (hdraw x y))
    simp [hxy, this]

/-- C5 amended: the scripts validate no configuration value.  A node count of
zero is accepted and yields the empty matrix; a negative edge probability is
accepted and yields a graph with no edge at all (draws of `random.random()`
are nonnegative); and an empty palette produces an error only when
`rand_initialise_colors` actually draws a color (Python's `randint` raising
on an empty range, reached only when there is at least one node) — with zero
nodes even the empty palette passes silently, returning the empty coloring.
In no case is there a descriptive configuration error at initialization. -/
theorem invalid_config_silently_accepted (prob : ℚ) (oracle : Nat → Nat → ℚ)
    (num_nodes : Nat) (adj_matrix : Matrix) (initOracle : Nat → Nat)
    (hdraw : ∀ i j, 0 ≤ oracle i j) (hprob : prob < 0) :
    create_random_simple_graph 0 prob oracle = [] ∧
    (∀ i j, entry (create_random_simple_graph num_nodes prob oracle) i j = 0) ∧
    (adj_matrix.length ≠ 0 → rand_initialise_colors adj_matrix [] initOracle = none) ∧
    rand_initialise_colors [] [] initOracle = some [] := by
  refine ⟨rfl, ?hzero, ?hempty, rfl⟩
  case hempty =>
    intro ha
    unfold rand_initialise_colors
    rw [if_neg ha]
    rfl
  apply entry_eq_zero_of_forall_zero
  intro row hrow v hv
  simp only [create_random_simple_graph] at hrow
  obtain ⟨x, -, rfl⟩ := List.mem_map.mp hrow
  rcases List.mem_append.mp hv with hlo | happ
  · rcases Nat.lt_or_ge x (lowerRows num_nodes prob oracle).length with hx | hx
    · refine lowerRows_all_zero num_nodes prob oracle hdraw hprob
        ((lowerRows num_nodes prob oracle).getD x []) ?_ v hlo
      rw [List.getD_eq_getElem _ _ hx]
      exact List.getElem_mem hx
    · rw [List.getD_eq_default _ _ hx] at hlo
      simp at hlo
  · obtain ⟨y, -, rfl⟩ := List.mem_map.mp happ
    exact entry_eq_zero_of_forall_zero _ (lowerRows_all_zero num_nodes prob oracle hdraw hprob) y x

/-- Witness for the C5 amended theorem at a concrete invalid configuration. -/
theorem invalid_config_silently_accepted_witness :
    create_random_simple_graph 0 (-1) (fun _ _ => 0) = [] ∧
    entry (create_random_simple_graph 2 (-1) (fun _ _ => 0)) 1 0 = 0 ∧
    rand_initialise_colors [[0]] [] (fun _ => 0) = none ∧
    rand_initialise_colors [] [] (fun _ => 0) = some [] := by
  have h := invalid_config_silently_accepted (-1) (fun _ _ => 0) 2 [[0]] (fun _ => 0)
    (fun _ _ => le_refl 0) (by norm_num)
  exact ⟨(invalid_config_silently_accepted (-1) (fun _ _ => 0) 0 [[0]] (fun _ => 0)
    (fun _ _ => le_refl 0) (by norm_num)).1, h.2.1 1 0, h.2.2.1 (by decide), h.2.2.2⟩

/-- C5 counterexample: there is no fail-fast configuration check: the invalid
node count zero is silently accepted, the graph generator simply returning
the empty adjacency matrix. -/
theorem invalid_config_not_rejected :
    create_random_simple_graph 0 (-1) (fun _ _ => 0) = [] ∧
    create_random_simple_graph 2 (-1) (fun _ _ => 0) = [[0, 0], [0, 0]] := by
  constructor
  · rfl
  · decide

/-- The while loop of the perturbation only exits once the toggle counter has
reached the requested count. -/
theorem reverseLoop_le (num_nodes count : Nat) (p : ℚ) (oracle : Nat → ℚ) :
    ∀ fuel st fin, reverseLoop num_nodes count p oracle fuel st = some fin →
      count ≤ fin.2.1 := by
  intro fuel
  induction fuel with
  | zero =>
    intro st fin h
    unfold reverseLoop at h
    by_cases hlt : st.2.1 < count
    · rw [if_pos hlt] at h; exact absurd h (by simp)
    · rw [if_neg hlt] at h
      cases h
      exact not_lt.mp hlt
  | succ n ih =>
    intro st fin h
    unfold reverseLoop at h
    by_cases hlt : st.2.1 < count
    · rw [if_pos hlt] at h
      exact ih _ _ h
    · rw [if_neg hlt] at h
      cases h
      exact not_lt.mp hlt

/-- With a count of 0 the while condition is false at once, so the matrix
comes back unchanged with no toggle performed. -/
theorem reverse_n_adjacencies_zero_count (fuel : Nat) (adj_matrix : Matrix)
    (oracle : Nat → ℚ) :
    reverse_n_adjacencies fuel adj_matrix 0 oracle = some (adj_matrix, 0) := by
  unfold reverse_n_adjacencies
  cases fuel <;> simp [reverseLoop]

/-- For at most one node there is no sub-diagonal pair to iterate. -/
theorem lowerPairs_eq_nil (num_nodes : Nat) (h : num_nodes ≤ 1) :
    lowerPairs num_nodes = [] := by
  interval_cases num_nodes <;> rfl

/-- A scan over a matrix with at most one row does nothing: the pair loop
body (and with it the probability comparison and its division) never runs. -/
theorem reverseScan_degenerate (num_nodes : Nat) (h : num_nodes ≤ 1) (p : ℚ)
    (oracle : Nat → ℚ) (st : Matrix × Nat × Nat) :
    reverseScan num_nodes p oracle st = st := by
  unfold reverseScan
  rw [lowerPairs_eq_nil num_nodes h]
  rfl

/-- On a degenerate matrix the while loop can never accumulate a toggle, so
it never exits once entered. -/
theorem reverseLoop_degenerate_none (num_nodes count : Nat) (p : ℚ) (oracle : Nat → ℚ)
    (hn : num_nodes ≤ 1) :
    ∀ fuel st, st.2.1 < count → reverseLoop num_nodes count p oracle fuel st = none := by
  intro fuel
  induction fuel with
  | zero =>
    intro st hst
    unfold reverseLoop
    rw [if_pos hst]
  | succ n ih =>
    intro st hst
    unfold reverseLoop
    rw [if_pos hst, reverseScan_degenerate num_nodes hn p oracle st]
    exact ih st hst

/-- Concrete evaluation of the perturbation on the two-node one-edge graph
with count 1 and all draws 0: the single pair `(1, 0)` is toggled once. -/
theorem reverse_two_node_eval :
    reverse_n_adjacencies 1 [[0, 1], [1, 0]] 1 (fun _ => 0) = some ([[0, 1], [0, 0]], 1) := by
  have hp : ((1 : Nat) : ℚ) / max_edges 2 = 1 := by
    norm_num [max_edges]
  show (reverseLoop 2 1 (((1 : Nat) : ℚ) / max_edges 2) (fun _ => 0) 1
      ([[0, 1], [1, 0]], 0, 0)).map (fun st => (st.1, st.2.1)) = some ([[0, 1], [0, 0]], 1)
  rw [hp]
  decide

/-- C9: whenever `reverse_n_adjacencies` returns, the number of toggles
performed is at least the requested count (overshoot allowed, undershoot
forbidden); and with count 0 the while loop is never entered, so no toggle
occurs and the matrix comes back unchanged. -/
theorem reverse_n_adjacencies_toggle_count (fuel : Nat) (adj_matrix : Matrix)
    (count : Nat) (oracle : Nat → ℚ) :
    (∀ m k, reverse_n_adjacencies fuel adj_matrix count oracle = some (m, k) → count ≤ k) ∧
    reverse_n_adjacencies fuel adj_matrix 0 oracle = some (adj_matrix, 0) := by
  constructor
  · intro m k h
    unfold reverse_n_adjacencies at h
    obtain ⟨fin, hfin, hmk⟩ := Option.map_eq_some'.mp h
    have := reverseLoop_le adj_matrix.length count _ oracle fuel _ _ hfin
    cases hmk
    exact this
  · exact reverse_n_adjacencies_zero_count fuel adj_matrix oracle

/-- Witness for C9: a returning run with count 1 performed one toggle, and
the count-0 call on the same graph returns it unchanged. -/
theorem reverse_n_adjacencies_toggle_count_witness :
    (1 : Nat) ≤ 1 ∧
    reverse_n_adjacencies 1 [[0, 1], [1, 0]] 0 (fun _ => 0) = some ([[0, 1], [1, 0]], 0) :=
  ⟨(reverse_n_adjacencies_toggle_count 1 [[0, 1], [1, 0]] 1 (fun _ => 0)).1
      [[0, 1], [0, 0]] 1 reverse_two_node_eval,
    (reverse_n_adjacencies_toggle_count 1 [[0, 1], [1, 0]] 0 (fun _ => 0)).2⟩

/-- C1: the perturbation does not preserve symmetry.  On the symmetric,
loop-free two-node graph with one edge and count 1, the function flips only
the sub-diagonal entry `adj_matrix[1][0]` and never its mirror
`adj_matrix[0][1]`, returning an asymmetric matrix — contradicting the
script's own comment that iterating one half of the matrix preserves
adjacency-matrix symmetry. -/
theorem reverse_n_adjacencies_breaks_symmetry :
    reverse_n_adjacencies 1 [[0, 1], [1, 0]] 1 (fun _ => 0) = some ([[0, 1], [0, 0]], 1) ∧
    entry [[0, 1], [1, 0]] 0 1 = entry [[0, 1], [1, 0]] 1 0 ∧
    entry [[0, 1], [0, 0]] 0 1 ≠ entry [[0, 1], [0, 0]] 1 0 :=
  ⟨reverse_two_node_eval, by decide, by decide⟩

/-- C6 counterexample: with `max_edges = 0` (a one-node graph) and a positive
count the perturbation is not a no-op: there is no pair to toggle, the toggle
counter never reaches the count, and the call fails to return for every
amount of fuel. -/
theorem reverse_n_adjacencies_no_short_circuit :
    NeverReturns [[0]] 1 (fun _ => 0) := by
  intro fuel
  unfold reverse_n_adjacencies
  rw [reverseLoop_degenerate_none ([[0]] : Matrix).length 1
    (((1 : Nat) : ℚ) / max_edges ([[0]] : Matrix).length) (fun _ => 0) (by decide) fuel
    ([[0]], 0, 0) (by decide)]
  rfl

/-- C6 amended: a count of 0 short-circuits (the matrix is returned unchanged
with no toggle) and an edgeless graph has zero conflicts for every coloring;
but when `max_edges = 0` (at most one node) and the count is positive the
perturbation does not short-circuit to a no-op — the while loop can never
accumulate a toggle and the call never returns.  No division-by-zero arises,
since the probability expression is evaluated only inside the pair loop,
which is empty for such matrices. -/
theorem degenerate_graph_behavior (adj_matrix : Matrix) (oracle : Nat → ℚ)
    (fuel : Nat) (colors : List Color) (count : Nat) :
    reverse_n_adjacencies fuel adj_matrix 0 oracle = some (adj_matrix, 0) ∧
    ((∀ i ∈ List.range adj_matrix.length, ∀ j ∈ List.range i, entry adj_matrix i j = 0) →
      get_color_conflicts adj_matrix colors = 0) ∧
    (adj_matrix.length ≤ 1 → 0 < count → NeverReturns adj_matrix count oracle) := by
  refine ⟨reverse_n_adjacencies_zero_count fuel adj_matrix oracle, ?_, ?_⟩
  · intro hzero
    simp only [get_color_conflicts, list_sum_range_map]
    apply Finset.sum_eq_zero
    intro i hi
    apply Finset.sum_eq_zero
    intro j hj
    rw [hzero i (by simpa using hi) j (by simpa using hj)]
    simp
  · intro hn hcount fuel'
    unfold reverse_n_adjacencies
    rw [reverseLoop_degenerate_none adj_matrix.length count
      ((count : ℚ) / max_edges adj_matrix.length) oracle hn fuel' (adj_matrix, 0, 0) hcount]
    rfl

/-- Witness for the C6 amended theorem on the one-node graph. -/
theorem degenerate_graph_behavior_witness :
    reverse_n_adjacencies 3 [[0]] 0 (fun _ => 0) = some ([[0]], 0) ∧
    get_color_conflicts [[0]] ["cyan"] = 0 ∧
    reverse_n_adjacencies 7 [[0]] 1 (fun _ => 0) = none := by
  have h := degenerate_graph_behavior [[0]] (fun _ => 0) 3 ["cyan"] 1
  exact ⟨h.1, h.2.1 (by decide), h.2.2 (by decide) (by decide) 7⟩

/-- An attempt on a positive palette size always produces a coloring, since
the palette prefix is nonempty. -/
theorem part1Attempt_isSome (adj_matrix : Matrix) (p_change : ℚ) (initOracle : Nat → Nat)
    (roundOracle : Nat → Nat → ℚ) (size : Nat) (hs : 0 < size) :
    ∃ colors, part1Attempt adj_matrix p_change initOracle roundOracle size = some colors := by
  unfold part1Attempt rand_initialise_colors
  by_cases ha : adj_matrix.length = 0
  · rw [if_pos ha]
    exact ⟨_, rfl⟩
  · have hlen : (all_available_colors.take size).length ≠ 0 := by
      rw [List.length_take]
      have : all_available_colors.length = 12 := rfl
      omega
    rw [if_neg ha, if_neg hlen]
    exact ⟨_, rfl⟩

/-- Characterization of the `part_1` driver loop for positive sizes: the
attempted sizes are the first `log.length` input sizes in order, all
attempts before the last converged, the loop stops early only on a failed
last attempt, and the final best coloring is the last converged attempt's
coloring (the accumulator when no attempt converged). -/
theorem part1Loop_characterized (adj_matrix : Matrix) (p_change : ℚ)
    (initOracle : Nat → Nat → Nat) (roundOracle : Nat → Nat → Nat → ℚ) :
    ∀ (sizes : List Nat) (acc : Option (List Color)), (∀ s ∈ sizes, 0 < s) →
      (part1Loop adj_matrix p_change initOracle roundOracle sizes acc).1.map
          AttemptResult.size =
        sizes.take
          (part1Loop adj_matrix p_change initOracle roundOracle sizes acc).1.length ∧
      (∀ r ∈ (part1Loop adj_matrix p_change initOracle roundOracle sizes acc).1.dropLast,
        r.converged = true) ∧
      ((part1Loop adj_matrix p_change initOracle roundOracle sizes acc).1.length <
          sizes.length →
        (part1Loop adj_matrix p_change initOracle roundOracle sizes acc).1.getLast?.map
          (fun r => r.converged) = some false) ∧
      (part1Loop adj_matrix p_change initOracle roundOracle sizes acc).2 =
        (((part1Loop adj_matrix p_change initOracle roundOracle sizes acc).1.filter
            (fun r => r.converged)).getLast?.map (fun r => some r.colors)).getD acc := by
  intro sizes
  induction sizes with
  | nil => intro acc _; simp [part1Loop]
  | cons size rest ih =>
    intro acc hpos
    obtain ⟨colors, hc⟩ := part1Attempt_isSome adj_matrix p_change (initOracle size)
      (roundOracle size) size (hpos size (by simp))
    by_cases hconv : get_color_conflicts adj_matrix colors = 0
    · have hrec := ih (some colors) (fun s hs => hpos s (by simp [hs]))
      simp only [part1Loop, hc, if_pos hconv]
      set recres := part1Loop adj_matrix p_change initOracle roundOracle rest (some colors)
        with hrecres
      refine ⟨?_, ?_, ?_, ?_⟩
      · simp only [List.map_cons, List.length_cons, List.take_succ_cons]
        rw [hrec.1]
      · cases hlog : recres.1 with
        | nil => simp
        | cons r0 rtail =>
          rw [List.dropLast_cons_of_ne_nil (by simp)]
          intro r hr
          rcases List.mem_cons.mp hr with rfl | hr2
          · rfl
          · exact hrec.2.1 r (by rw [hlog]; exact hr2)
      · intro hlen
        simp only [List.length_cons] at hlen
        have hlt : recres.1.length < rest.length := by omega
        have htail := hrec.2.2.1 hlt
        cases hlog : recres.1 with
        | nil => rw [hlog] at htail; simp at htail
        | cons r0 rtail =>
          rw [hlog] at htail
          rw [List.getLast?_cons_cons]
          exact htail
      · simp only [List.filter_cons]
        rw [if_pos trivial]
        cases hfil : recres.1.filter (fun r => r.converged) with
        | nil =>
          rw [hrec.2.2.2, hfil]
          simp
        | cons f0 ftail =>
          rw [hrec.2.2.2, hfil, List.getLast?_cons_cons]
          obtain ⟨x, hx⟩ : ∃ x, (f0 :: ftail).getLast? = some x :=
            ⟨(f0 :: ftail).getLast (by simp), List.getLast?_eq_getLast _ (by simp)⟩
          rw [hx]
          simp
    · simp only [part1Loop, hc, if_neg hconv]
      refine ⟨by simp, by simp, ?_, by simp⟩
      intro _
      simp

/-- C3 counterexample: on the one-node (edgeless) graph every attempt
converges, and the run nevertheless terminates — after the size-3 attempt,
the lower bound of `range(12, 2, -1)` — so the run does not stop at an
Exhausted attempt (there is none). -/
theorem part1Run_stops_without_exhausted :
    ((part1Run [[0]] 0 (fun _ _ => 0) (fun _ _ _ => 0)).1.map
      (fun r => (r.size, r.converged))) =
      [(12, true), (11, true), (10, true), (9, true), (8, true), (7, true), (6, true),
       (5, true), (4, true), (3, true)] := by
  decide

/-- C3 amended: the attempted palette sizes of `part_1` are an initial
segment of `[12, 11, ..., 3]` — they start at the full palette size and
decrease by exactly 1 after each Converged attempt; every attempt before the
last converged; the run stops early only at a first Exhausted attempt (after
all sizes down to 3 converge, it stops at the range bound instead); and the
reported best coloring is the last Converged attempt's coloring (none when no
attempt converged). -/
theorem part1Run_monotone_shrink (adj_matrix : Matrix) (p_change : ℚ)
    (initOracle : Nat → Nat → Nat) (roundOracle : Nat → Nat → Nat → ℚ) :
    (part1Run adj_matrix p_change initOracle roundOracle).1.map AttemptResult.size =
      ([12, 11, 10, 9, 8, 7, 6, 5, 4, 3].take
        (part1Run adj_matrix p_change initOracle roundOracle).1.length) ∧
    (∀ r ∈ (part1Run adj_matrix p_change initOracle roundOracle).1.dropLast,
      r.converged = true) ∧
    ((part1Run adj_matrix p_change initOracle roundOracle).1.length < 10 →
      (part1Run adj_matrix p_change initOracle roundOracle).1.getLast?.map
        (fun r => r.converged) = some false) ∧
    (part1Run adj_matrix p_change initOracle roundOracle).2 =
      (((part1Run adj_matrix p_change initOracle roundOracle).1.filter
          (fun r => r.converged)).getLast?.map (fun r => some r.colors)).getD none := by
  have h := part1Loop_characterized adj_matrix p_change initOracle roundOracle
    (rangeDown all_available_colors.length 2) none (by decide)
  have hsz : rangeDown all_available_colors.length 2 = [12, 11, 10, 9, 8, 7, 6, 5, 4, 3] := by
    decide
  rw [hsz] at h
  exact ⟨h.1, h.2.1, fun hl => h.2.2.1 hl, h.2.2.2⟩

/-- C4 counterexample: colors do not persist across a palette shrink.  On the
one-node edgeless graph the node is never in conflict, so the decision rule
never changes its color (a round is the identity there, second conjunct); yet
after the size-12 attempt ends with the color "navy" — which lies outside the
shrunken 11-color palette — the size-11 attempt begins, and ends, with
"cyan": the old color was replaced by the fresh random re-initialization, not
by the node's own decision. -/
theorem color_not_persistent_across_shrink :
    ((part1Run [[0]] 0 (fun size _ => if size = 12 then 11 else 0) (fun _ _ _ => 0)).1.map
      (fun r => (r.size, r.colors))).take 2 = [(12, ["navy"]), (11, ["cyan"])] ∧
    runRound [[0]] (all_available_colors.take 11) 0 (fun _ => 0) ["navy"] = ["navy"] := by
  exact ⟨by decide, by decide⟩

/-- C4 amended: the coloring does not persist between attempts: every attempt
of `part_1` begins by re-drawing all node colors from its own active palette
prefix, so each logged attempt's final coloring is fully determined by that
attempt's size and oracles — the previous attempt's coloring, whether inside
or outside the new palette, is discarded by the re-initialization rather than
kept until the node itself recolors. -/
theorem part1_attempts_reinitialized (adj_matrix : Matrix) (p_change : ℚ)
    (initOracle : Nat → Nat → Nat) (roundOracle : Nat → Nat → Nat → ℚ) :
    ∀ r ∈ (part1Run adj_matrix p_change initOracle roundOracle).1,
      part1Attempt adj_matrix p_change (initOracle r.size) (roundOracle r.size) r.size =
        some r.colors := by
  suffices h : ∀ (sizes : List Nat) (acc : Option (List Color)),
      ∀ r ∈ (part1Loop adj_matrix p_change initOracle roundOracle sizes acc).1,
        part1Attempt adj_matrix p_change (initOracle r.size) (roundOracle r.size) r.size =
          some r.colors by
    exact h _ none
  intro sizes
  induction sizes with
  | nil => intro acc r hr; simp [part1Loop] at hr
  | cons size rest ih =>
    intro acc r hr
    cases hc : part1Attempt adj_matrix p_change (initOracle size) (roundOracle size) size with
    | none => simp only [part1Loop, hc] at hr; simp at hr
    | some colors =>
      by_cases hconv : get_color_conflicts adj_matrix colors = 0
      · simp only [part1Loop, hc, if_pos hconv] at hr
        rcases List.mem_cons.mp hr with rfl | htail
        · exact hc
        · exact ih (some colors) r htail
      · simp only [part1Loop, hc, if_neg hconv] at hr
        rcases List.mem_cons.mp hr with rfl | habs
        · exact hc
        · simp at habs

/-- Witness for the C4 amended theorem: the first attempt of a concrete run
is exactly the fresh attempt computed from its own palette size and
oracles. -/
theorem part1_attempts_reinitialized_witness :
    part1Attempt [[0]] 0 (fun _ => 11) (fun _ _ => 0) 12 = some ["navy"] :=
  part1_attempts_reinitialized [[0]] 0 (fun _ _ => 11) (fun _ _ _ => 0)
    ⟨12, ["navy"], true⟩ (by decide)

end GraphColoring
